import Mathlib

/-!
Verification of the segmented-media download core of crunchy-cli
(src/crunchy-cli-core/src/cli/utils.rs).

The file embeds the pure content of the source into Lean:
- the reorder buffer of the reassembly loop in download_segments
  (BTreeMap buffer, write cursor data_pos, sequential writer),
- the round-robin work partitioner,
- the per-segment retry loop of a fetch worker,
- the progress-bar arithmetic,
- find_resolution,
- FFmpegPreset::ffmpeg_presets.

Machine integers (u64, usize) are modelled as Nat; the arithmetic in the
source stays far below 2^64 and every subtraction is proved not to
underflow where it is used, so Nat is a faithful model.
-/

/-- A message sent on the completion channel: the segment original index
together with its decrypted payload (code: thread_sender.send((num + (i * cpus), buf))). -/
abbrev Msg (α : Type) := Nat × α

/-- Association-list model of the BTreeMap used as reassembly buffer.
Lookup of a key (code: buf.remove(&data_pos) returning Some). -/
def lookupKey {α : Type} (k : Nat) : List (Nat × α) → Option α
  | [] => none
  | e :: rest => if e.1 = k then some e.2 else lookupKey k rest

/-- Removal of the (unique) entry with the given key, the removing half of
BTreeMap::remove. -/
def removeKey {α : Type} (k : Nat) : List (Nat × α) → List (Nat × α)
  | [] => []
  | e :: rest => if e.1 = k then rest else e :: removeKey k rest

/-- State of the reassembly loop: write cursor data_pos, the buffer and the
bytes written so far (in write order). -/
structure RState (α : Type) where
  dataPos : Nat
  buf : List (Nat × α)
  out : List α
deriving Repr, DecidableEq

/-- The drain pass of the reassembly loop
(code: while let Some(b) = buf.remove(&data_pos) { writer.write_all(b)?; data_pos += 1; }).
The fuel argument only serves termination: each successful removal shrinks
the buffer by one entry, so fuel equal to the buffer length makes this
function agree with the unbounded source loop. -/
def drain {α : Type} : Nat → Nat → List (Nat × α) → List α → Nat × List (Nat × α) × List α
  | 0, pos, buf, out => (pos, buf, out)
  | fuel + 1, pos, buf, out =>
    match lookupKey pos buf with
    | none => (pos, buf, out)
    | some b => drain fuel (pos + 1) (removeKey pos buf) (out ++ [b])

/-- One iteration of the receiver loop of download_segments: on message
(pos, bytes), either write immediately (pos equals data_pos) or insert the
message into the buffer, then run the drain pass. -/
def recvStep {α : Type} (st : RState α) (m : Msg α) : RState α :=
  let st1 : RState α :=
    if st.dataPos = m.1 then ⟨st.dataPos + 1, st.buf, st.out ++ [m.2]⟩
    else ⟨st.dataPos, (m.1, m.2) :: st.buf, st.out⟩
  let r := drain st1.buf.length st1.dataPos st1.buf st1.out
  ⟨r.1, r.2.1, r.2.2⟩

/-- The whole receiver loop (code: for (pos, bytes) in receiver.iter()),
run on the list of messages in their arrival order, starting from cursor 0,
an empty buffer and nothing written. -/
def reassemble {α : Type} (msgs : List (Msg α)) : RState α :=
  msgs.foldl recvStep ⟨0, [], []⟩

/-- Invariant of the receiver loop between iterations (after a drain pass),
relative to the list R of indices received so far and the payload
assignment f: everything below the cursor has been written in order, the
buffer holds exactly the received indices at or above the cursor (hence,
with dataPos itself not received, strictly above it), and every written
index was received. -/
def RInv {α : Type} (f : Nat → α) (R : List Nat) (st : RState α) : Prop :=
  st.out = (List.range st.dataPos).map f ∧
  (st.buf.map Prod.fst).Nodup ∧
  (∀ e ∈ st.buf, e.2 = f e.1) ∧
  (∀ k, k ∈ st.buf.map Prod.fst ↔ (k ∈ R ∧ st.dataPos ≤ k)) ∧
  st.dataPos ∉ R ∧
  (∀ k, k < st.dataPos → k ∈ R)

/-- The same invariant before the drain pass: the cursor value itself may
still be sitting in the buffer. -/
def RPreInv {α : Type} (f : Nat → α) (R : List Nat) (pos : Nat)
    (buf : List (Nat × α)) (out : List α) : Prop :=
  out = (List.range pos).map f ∧
  (buf.map Prod.fst).Nodup ∧
  (∀ e ∈ buf, e.2 = f e.1) ∧
  (∀ k, k ∈ buf.map Prod.fst ↔ (k ∈ R ∧ pos ≤ k)) ∧
  (∀ k, k < pos → k ∈ R)

/-- Appending one segment to bucket w of the worker assignment vector
(code: segs[i - ((i / cpus) * cpus)].push(segment)). Out-of-range w leaves
the vector unchanged; in download_segments w is always in range. -/
def pushAt {σ : Type} (w : Nat) (s : σ) : List (List σ) → List (List σ)
  | [] => []
  | l :: ls =>
    match w with
    | 0 => (l ++ [s]) :: ls
    | w + 1 => l :: pushAt w s ls

/-- The partitioning loop of download_segments
(code: for (i, segment) in segments.iter().enumerate()), carrying the
running original index i. -/
def distributeFrom {σ : Type} (cpus : Nat) : Nat → List σ → List (List σ) → List (List σ)
  | _, [], segs => segs
  | i, s :: rest, segs =>
    distributeFrom cpus (i + 1) rest (pushAt (i - ((i / cpus) * cpus)) s segs)

/-- The work partitioner of download_segments: cpus empty buckets, then the
round-robin distribution loop. -/
def partitionSegments {σ : Type} (segments : List σ) (cpus : Nat) : List (List σ) :=
  distributeFrom cpus 0 segments (List.replicate cpus [])

/-- Sub-list w as the spec words it: those segments whose original index i
(counting from the given start) satisfies i mod N = w, kept in original
relative order. Spec-side characterization used to state the refinement. -/
def specSublist {σ : Type} (N w : Nat) : Nat → List σ → List σ
  | _, [] => []
  | i, s :: rest =>
    if i % N = w then s :: specSublist N w (i + 1) rest else specSublist N w (i + 1) rest

/-- One worker of download_segments, processing its assigned index list
sequentially. res i is the combined outcome of fetching and decrypting
segment i: ok with the decrypted payload, or error (the error return of
VariantSegment::decrypt propagated by the question-mark operator). The
worker sends a message per finished segment and stops at the first error,
returning it as the task result. -/
def runWorker {ε α : Type} (res : Nat → Except ε α) : List Nat → List (Msg α) × Except ε Unit
  | [] => ([], Except.ok ())
  | i :: rest =>
    match res i with
    | Except.error e => ([], Except.error e)
    | Except.ok a =>
      let r := runWorker res rest
      ((i, a) :: r.1, r.2)

/-- The join loop at the end of download_segments
(code: while let Some(joined) = join_set.join_next().await { joined?? }):
the first worker error aborts the function with that error. -/
def joinResults {ε : Type} : List (Except ε Unit) → Except ε Unit
  | [] => Except.ok ()
  | r :: rest =>
    match r with
    | Except.error e => Except.error e
    | Except.ok _ => joinResults rest

/-- The payload a segment index yields when its worker succeeded on it. -/
def okValue {ε α : Type} [Inhabited α] (res : Nat → Except ε α) (i : Nat) : α :=
  match res i with
  | Except.ok a => a
  | Except.error _ => default

/-- End-to-end model of download_segments after the fetch phase: partition
the M segment indices over N workers, run the workers, reassemble the
channel messages (arrival is any permutation of what the workers sent), and
finish with the join loop; the written output is returned on success. -/
def download_segments_model {ε α : Type} (res : Nat → Except ε α) (M N : Nat)
    (arrival : List (Msg α)) : Except ε (List α) :=
  let runs := (partitionSegments (List.range M) N).map (runWorker res)
  match joinResults (runs.map Prod.snd) with
  | Except.error e => Except.error e
  | Except.ok _ => Except.ok (reassemble arrival).out

/-- The per-attempt transport outcome of one segment download: attempts t
is some bytes if the t-th call of response.bytes() succeeds, none if it
fails. -/
abbrev Attempts (α : Type) := Nat → Option α

/-- The retry loop of a worker for one segment
(code: loop { resp = client.get(url)...bytes().await; if resp.is_ok() { break; } }).
The loop in the source is unbounded; fuel only bounds the modelled number
of iterations, and a none result stands for a run that has not succeeded
within fuel attempts (the source would still be looping). t is the index
of the next attempt. -/
def retryLoop {α : Type} (attempts : Attempts α) : Nat → Nat → Option α
  | _, 0 => none
  | t, fuel + 1 =>
    match attempts t with
    | some r => some r
    | none => retryLoop attempts (t + 1) fuel

/-- The whole fetch of one segment: first attempt (response.bytes()), on
failure the inline second attempt, then the unbounded retry loop starting
at attempt index 2. -/
def fetchSegment {α : Type} (attempts : Attempts α) (fuel : Nat) : Option α :=
  match attempts 0 with
  | some r => some r
  | none =>
    match attempts 1 with
    | some r => some r
    | none => retryLoop attempts 2 fuel

/-- Nine segments delivered in reverse global order, with payload [i] for
segment i: the end-to-end example of the spec. -/
def exMsgsC1 : List (Msg (List Nat)) :=
  [(8, [8]), (7, [7]), (6, [6]), (5, [5]), (4, [4]), (3, [3]), (2, [2]), (1, [1]), (0, [0])]

/-- Concrete failing run for the C4 witness: segment 1 fails to decrypt. -/
def exResC4 : Nat → Except Unit Nat := fun i => if i = 1 then Except.error () else Except.ok i

/-- A transport that fails on exactly the first k attempts of a segment
and succeeds with payload b on attempt k. -/
def failsExactlyThen {α : Type} (attempts : Attempts α) (k : Nat) (b : α) : Prop :=
  (∀ t, t < k → attempts t = none) ∧ attempts k = some b

/-- The transport of the C3 counterexample: attempts 0..4 fail, attempt 5
succeeds with payload 42 — five consecutive transport failures for one
segment. -/
def exAttemptsC3 : Attempts Nat := fun t => if t < 5 then none else some 42

/-- The per-segment data the progress arithmetic reads: length is the
optional expected duration in whole seconds
(code: s.length.unwrap_or_default().as_secs()). -/
structure VariantSegment where
  length : Option Nat
deriving Repr, DecidableEq

/-- The initial progress-bar total
(code: (variant_data.bandwidth / 8) * segments.iter().map(|s| s.length.unwrap_or_default().as_secs()).sum()). -/
def estimated_file_size (bandwidth : Nat) (segs : List VariantSegment) : Nat :=
  (bandwidth / 8) * (segs.map (fun s => s.length.getD 0)).sum

/-- The per-segment byte estimate recomputed on each completion
(code: (variant_data.bandwidth / 8) * segments.get(pos).unwrap().length.unwrap_or_default().as_secs()).
The source unwraps segments.get(pos); the model totalizes with a default
that is only reachable for pos outside the segment list, which the valid
runs of the loop never produce. -/
def estimated_segment_len (bandwidth : Nat) (segs : List VariantSegment) (pos : Nat) : Nat :=
  (bandwidth / 8) * ((segs.getD pos ⟨none⟩).length.getD 0)

/-- Progress-bar state: total length and consumed position. -/
structure ProgressState where
  length : Nat
  position : Nat
deriving Repr, DecidableEq

/-- The first half of the per-message progress update
(code: p.set_length(progress_len - estimated_segment_len + bytes_len)),
leaving the consumed position untouched. -/
def progress_set_length (bandwidth : Nat) (segs : List VariantSegment)
    (p : ProgressState) (m : Msg (List Nat)) : ProgressState :=
  ⟨p.length - estimated_segment_len bandwidth segs m.1 + m.2.length, p.position⟩

/-- The second half of the update (code: p.inc(bytes_len)). -/
def progress_inc (p : ProgressState) (m : Msg (List Nat)) : ProgressState :=
  ⟨p.length, p.position + m.2.length⟩

/-- The whole per-message progress update, in source order: the total is
adjusted first, then the consumed counter advances. -/
def progress_step (bandwidth : Nat) (segs : List VariantSegment)
    (p : ProgressState) (m : Msg (List Nat)) : ProgressState :=
  progress_inc (progress_set_length bandwidth segs p m) m

/-- Progress state after the first given completion messages of a run. -/
def progress_run (bandwidth : Nat) (segs : List VariantSegment)
    (msgs : List (Msg (List Nat))) : ProgressState :=
  msgs.foldl (progress_step bandwidth segs) ⟨estimated_file_size bandwidth segs, 0⟩

/-- Sum of the byte estimates of the segments whose index is not in K (the
not-yet-completed ones). -/
def remaining_est (bandwidth : Nat) (segs : List VariantSegment) (K : List Nat) : Nat :=
  (((List.range segs.length).filter (fun i => decide (i ∉ K))).map
    (estimated_segment_len bandwidth segs)).sum

/-- Spec-side formula for the initial total: (bandwidth divided by 8, in
bytes per second) times the sum of every expected duration in whole
seconds, a missing duration counting as zero. Stated over the bare
duration list to compare with the source definition. -/
def spec_initial_total (bandwidth : Nat) (durations : List (Option Nat)) : Nat :=
  (bandwidth / 8) * (durations.map (fun d => d.getD 0)).sum

/-- Example segment list for the progress witnesses. -/
def exSegsP : List VariantSegment := [⟨some 2⟩, ⟨some 3⟩, ⟨none⟩]

/-- Example completion-message arrivals for the progress witnesses. -/
def exMsgsP : List (Msg (List Nat)) := [(1, [9, 9]), (0, [7]), (2, [5, 5, 5])]

/-- Resolution of a variant (crunchyroll_rs::media::Resolution): width and
height in pixels, u64 in the source. -/
structure Resolution where
  width : Nat
  height : Nat
deriving Repr, DecidableEq

/-- The part of crunchyroll_rs::media::VariantData that find_resolution
reads. -/
structure VariantData where
  resolution : Resolution
deriving Repr, DecidableEq

/-- u64::MAX, the sentinel for a "maximum resolution" request; u64::MIN is 0. -/
def U64_MAX : Nat := 2 ^ 64 - 1

/-- The sort order of find_resolution
(code: sort_by(|a, b| a.resolution.width.cmp(&b.resolution.width).reverse())):
width descending. -/
def widthDesc (a b : VariantData) : Prop :=
  b.resolution.width ≤ a.resolution.width

instance : DecidableRel widthDesc := fun a b =>
  Nat.decLe b.resolution.width a.resolution.width

instance : IsTotal VariantData widthDesc :=
  ⟨fun a b => Nat.le_total b.resolution.width a.resolution.width⟩

instance : IsTrans VariantData widthDesc :=
  ⟨fun _ _ _ hab hbc => Nat.le_trans hbc hab⟩

/-- find_resolution: sort the variants by width descending (Rust sort_by is
a stable sort; a stable insertion sort stands in for it), then select by
the requested height: u64::MAX takes the first element, u64::MIN (0) the
last, any other value the first exact height match. The unwrap calls of
the two sentinel branches panic on an empty list; Except.error () models
that panic. -/
def find_resolution (streaming_data : List VariantData) (resolution : Resolution) :
    Except Unit (Option VariantData) :=
  let sorted := List.insertionSort widthDesc streaming_data
  if resolution.height = U64_MAX then
    match sorted.head? with
    | none => Except.error ()
    | some v => Except.ok (some v)
  else if resolution.height = 0 then
    match sorted.getLast? with
    | none => Except.error ()
    | some v => Except.ok (some v)
  else
    Except.ok (sorted.find? (fun v =>
      (resolution.height == U64_MAX) || (v.resolution.height == resolution.height)))

/-- The 1080, 720, 480 variant set of the spec example, widths descending. -/
def exVariants : List VariantData := [⟨⟨1920, 1080⟩⟩, ⟨⟨1280, 720⟩⟩, ⟨⟨640, 480⟩⟩]

/-- The FFmpegPreset enum. -/
inductive FFmpegPreset where
  | nvidia
  | av1
  | h265
  | h264
deriving Repr, DecidableEq

/-- FFmpegPreset::to_string. -/
def FFmpegPreset.toString : FFmpegPreset → String
  | FFmpegPreset.nvidia => "nvidia"
  | FFmpegPreset.av1 => "av1"
  | FFmpegPreset.h265 => "h265"
  | FFmpegPreset.h264 => "h264"

/-- The two bail! sites of FFmpegPreset::ffmpeg_presets, as structured
errors: codecConflict carries the preset list the source interpolates into
"Can only use one video codec, n found: ..." (so the error names the
conflicting presets), nvidiaAv1Conflict is the fixed
nvidia-with-av1 message. -/
inductive FFmpegError where
  | codecConflict (found : List FFmpegPreset)
  | nvidiaAv1Conflict
deriving Repr, DecidableEq

/-- preset_check_remove: remove the first occurrence of the preset if
present and report whether it was found. -/
def preset_check_remove (presets : List FFmpegPreset) (preset : FFmpegPreset) :
    List FFmpegPreset × Bool :=
  if presets.contains preset then (presets.erase preset, true) else (presets, false)

/-- One iteration of the for-loop over the remaining presets, extending the
input and output flag vectors. -/
def presetStep (nvidia : Bool) (acc : List String × List String) (p : FFmpegPreset) :
    Except FFmpegError (List String × List String) :=
  if nvidia then
    match p with
    | FFmpegPreset.av1 => Except.error FFmpegError.nvidiaAv1Conflict
    | FFmpegPreset.h265 =>
      Except.ok (acc.1 ++ ["-hwaccel", "cuvid", "-c:v", "h264_cuvid"],
        acc.2 ++ ["-c:v", "hevc_nvenc"])
    | FFmpegPreset.h264 =>
      Except.ok (acc.1 ++ ["-hwaccel", "cuvid", "-c:v", "h264_cuvid"],
        acc.2 ++ ["-c:v", "h264_nvenc"])
    | _ => Except.ok acc
  else
    match p with
    | FFmpegPreset.av1 => Except.ok (acc.1, acc.2 ++ ["-c:v", "libaom-av1"])
    | FFmpegPreset.h265 => Except.ok (acc.1, acc.2 ++ ["-c:v", "libx265"])
    | FFmpegPreset.h264 => Except.ok (acc.1, acc.2 ++ ["-c:v", "libx264"])
    | _ => Except.ok acc

/-- The whole for-loop of ffmpeg_presets. -/
def presetFold (nvidia : Bool) : List String × List String → List FFmpegPreset →
    Except FFmpegError (List String × List String)
  | acc, [] => Except.ok acc
  | acc, p :: rest =>
    match presetStep nvidia acc p with
    | Except.error e => Except.error e
    | Except.ok acc2 => presetFold nvidia acc2 rest

/-- FFmpegPreset::ffmpeg_presets: peel off the nvidia preset, reject more
than one remaining (codec) preset, run the flag loop, then append the copy
flags exactly as the source does. -/
def ffmpeg_presets (presets0 : List FFmpegPreset) :
    Except FFmpegError (List String × List String) :=
  let r := preset_check_remove presets0 FFmpegPreset.nvidia
  if 1 < r.1.length then Except.error (FFmpegError.codecConflict r.1)
  else
    match presetFold r.2 ([], []) r.1 with
    | Except.error e => Except.error e
    | Except.ok io =>
      if io.1.isEmpty && io.2.isEmpty then Except.ok (io.1, io.2 ++ ["-c", "copy"])
      else if io.2.isEmpty then Except.ok (io.1, io.2 ++ ["-c", "copy"])
      else Except.ok (io.1, io.2 ++ ["-c:a", "copy", "-c:s", "copy"])

lemma lookupKey_some_mem {α : Type} : ∀ {l : List (Nat × α)} {k : Nat} {b : α},
    lookupKey k l = some b → (k, b) ∈ l := by
  intro l
  induction l with
  | nil => intro k b h; simp [lookupKey] at h
  | cons e rest ih =>
    intro k b h
    rcases e with ⟨k0, v0⟩
    by_cases he : k0 = k
    · subst he
      simp [lookupKey] at h
      subst h
      exact List.mem_cons_self _ _
    · simp only [lookupKey] at h
      rw [if_neg (by simpa using he)] at h
      exact List.mem_cons_of_mem _ (ih h)

lemma lookupKey_none_iff {α : Type} : ∀ {l : List (Nat × α)} {k : Nat},
    lookupKey k l = none ↔ k ∉ l.map Prod.fst := by
  intro l
  induction l with
  | nil => intro k; simp [lookupKey]
  | cons e rest ih =>
    intro k
    by_cases he : e.1 = k
    · simp [lookupKey, he]
    · simp only [lookupKey]
      rw [if_neg he]
      simp only [List.map_cons, List.mem_cons, ih]
      constructor
      · intro h
        rintro (h1 | h1)
        · exact he h1.symm
        · exact h h1
      · intro h
        exact fun h1 => h (Or.inr h1)

lemma removeKey_length {α : Type} : ∀ {l : List (Nat × α)} {k : Nat},
    k ∈ l.map Prod.fst → (removeKey k l).length + 1 = l.length := by
  intro l
  induction l with
  | nil => intro k h; simp at h
  | cons e rest ih =>
    intro k h
    by_cases he : e.1 = k
    · simp [removeKey, he]
    · have hk : k ∈ rest.map Prod.fst := by
        rcases List.mem_cons.mp h with h1 | h1
        · exact absurd h1.symm he
        · exact h1
      simp [removeKey, he, ih hk]

lemma mem_removeKey {α : Type} : ∀ {l : List (Nat × α)} {k : Nat} {e : Nat × α},
    (l.map Prod.fst).Nodup → (e ∈ removeKey k l ↔ e ∈ l ∧ e.1 ≠ k) := by
  intro l
  induction l with
  | nil => intro k e _; simp [removeKey]
  | cons a rest ih =>
    intro k e hnd
    rw [List.map_cons, List.nodup_cons] at hnd
    obtain ⟨hnd1, hnd2⟩ := hnd
    by_cases ha : a.1 = k
    · rw [removeKey, if_pos ha]
      constructor
      · intro he
        refine ⟨List.mem_cons_of_mem _ he, ?_⟩
        intro hek
        exact hnd1 (by
          rw [ha, ← hek]
          exact List.mem_map_of_mem Prod.fst he)
      · rintro ⟨h, hek⟩
        rcases List.mem_cons.mp h with h1 | h1
        · exact absurd (h1 ▸ ha) hek
        · exact h1
    · rw [removeKey, if_neg ha]
      constructor
      · intro he
        rcases List.mem_cons.mp he with h1 | h1
        · exact ⟨h1 ▸ List.mem_cons_self a rest, h1 ▸ ha⟩
        · have := (ih hnd2).mp h1
          exact ⟨List.mem_cons_of_mem _ this.1, this.2⟩
      · rintro ⟨h, hek⟩
        rcases List.mem_cons.mp h with h1 | h1
        · exact h1 ▸ List.mem_cons_self a _
        · exact List.mem_cons_of_mem _ ((ih hnd2).mpr ⟨h1, hek⟩)

lemma removeKey_keys_nodup {α : Type} : ∀ {l : List (Nat × α)} {k : Nat},
    (l.map Prod.fst).Nodup → ((removeKey k l).map Prod.fst).Nodup := by
  intro l
  induction l with
  | nil => intro k _; simp [removeKey]
  | cons a rest ih =>
    intro k hnd
    rw [List.map_cons, List.nodup_cons] at hnd
    obtain ⟨hnd1, hnd2⟩ := hnd
    by_cases ha : a.1 = k
    · rw [removeKey, if_pos ha]
      exact hnd2
    · rw [removeKey, if_neg ha, List.map_cons, List.nodup_cons]
      refine ⟨?_, ih hnd2⟩
      intro hmem
      rcases List.mem_map.mp hmem with ⟨e, he, hfst⟩
      have hr : e ∈ rest := ((mem_removeKey hnd2).mp he).1
      exact hnd1 (hfst ▸ List.mem_map_of_mem Prod.fst hr)

lemma drain_succ {α : Type} (fuel pos : Nat) (buf : List (Nat × α)) (out : List α) :
    drain (fuel + 1) pos buf out =
      match lookupKey pos buf with
      | none => (pos, buf, out)
      | some b => drain fuel (pos + 1) (removeKey pos buf) (out ++ [b]) := rfl

lemma drain_inv {α : Type} (f : Nat → α) :
    ∀ (fuel : Nat) (buf : List (Nat × α)) (pos : Nat) (out : List α) (R : List Nat),
    buf.length ≤ fuel → RPreInv f R pos buf out →
    RInv f R ⟨(drain fuel pos buf out).1, (drain fuel pos buf out).2.1,
      (drain fuel pos buf out).2.2⟩ := by
  intro fuel
  induction fuel with
  | zero =>
    intro buf pos out R hlen hpre
    obtain ⟨h1, h2, h3, h4, h5⟩ := hpre
    have hbuf : buf = [] := List.length_eq_zero.mp (Nat.le_zero.mp hlen)
    subst hbuf
    refine ⟨h1, h2, h3, h4, ?_, h5⟩
    intro hR
    have := (h4 pos).mpr ⟨hR, Nat.le_refl pos⟩
    simp at this
  | succ fuel ih =>
    intro buf pos out R hlen hpre
    obtain ⟨h1, h2, h3, h4, h5⟩ := hpre
    cases hl : lookupKey pos buf with
    | none =>
      have hred : drain (fuel + 1) pos buf out = (pos, buf, out) := by
        rw [drain_succ, hl]
      rw [hred]
      refine ⟨h1, h2, h3, h4, ?_, h5⟩
      intro hR
      have hmem := (h4 pos).mpr ⟨hR, Nat.le_refl pos⟩
      exact (lookupKey_none_iff.mp hl) hmem
    | some b =>
      have hred : drain (fuel + 1) pos buf out
          = drain fuel (pos + 1) (removeKey pos buf) (out ++ [b]) := by
        rw [drain_succ, hl]
      rw [hred]
      have hmem : (pos, b) ∈ buf := lookupKey_some_mem hl
      have hkey : pos ∈ buf.map Prod.fst := List.mem_map_of_mem Prod.fst hmem
      have hb : b = f pos := h3 _ hmem
      have hlen2 : (removeKey pos buf).length ≤ fuel := by
        have := removeKey_length (l := buf) hkey
        omega
      refine ih (removeKey pos buf) (pos + 1) (out ++ [b]) R hlen2 ⟨?_, ?_, ?_, ?_, ?_⟩
      · rw [h1, hb, List.range_succ, List.map_append]
        simp
      · exact removeKey_keys_nodup h2
      · intro e he
        exact h3 e ((mem_removeKey h2).mp he).1
      · intro k
        constructor
        · intro hk
          rcases List.mem_map.mp hk with ⟨e, he, hfst⟩
          have he2 := (mem_removeKey h2).mp he
          have hkbuf : k ∈ buf.map Prod.fst := hfst ▸ List.mem_map_of_mem Prod.fst he2.1
          have := (h4 k).mp hkbuf
          have hne : k ≠ pos := hfst ▸ he2.2
          exact ⟨this.1, by omega⟩
        · rintro ⟨hkR, hkpos⟩
          have hkbuf : k ∈ buf.map Prod.fst := (h4 k).mpr ⟨hkR, by omega⟩
          rcases List.mem_map.mp hkbuf with ⟨e, he, hfst⟩
          have hne : e.1 ≠ pos := by omega
          exact hfst ▸ List.mem_map_of_mem Prod.fst ((mem_removeKey h2).mpr ⟨he, hne⟩)
      · intro k hk
        by_cases hkp : k = pos
        · subst hkp
          exact ((h4 k).mp hkey).1
        · exact h5 k (by omega)

lemma recvStep_inv {α : Type} {f : Nat → α} {R : List Nat} {st : RState α} {m : Msg α}
    (hinv : RInv f R st) (hfresh : m.1 ∉ R) (hpay : m.2 = f m.1) :
    RInv f (m.1 :: R) (recvStep st m) := by
  obtain ⟨h1, h2, h3, h4, h5, h6⟩ := hinv
  rw [recvStep]
  by_cases hp : st.dataPos = m.1
  · simp only [if_pos hp]
    have hpre : RPreInv f (m.1 :: R) (st.dataPos + 1) st.buf (st.out ++ [m.2]) := by
      refine ⟨?_, h2, h3, ?_, ?_⟩
      · rw [h1, hpay, List.range_succ, List.map_append, hp]
        simp
      · intro k
        rw [h4 k]
        constructor
        · rintro ⟨hkR, hkpos⟩
          have : k ≠ st.dataPos := fun h => h5 (h ▸ hkR)
          exact ⟨List.mem_cons_of_mem _ hkR, by omega⟩
        · rintro ⟨hk, hkpos⟩
          rcases List.mem_cons.mp hk with h | h
          · omega
          · exact ⟨h, by omega⟩
      · intro k hk
        by_cases hkp : k = st.dataPos
        · rw [hkp, hp]; exact List.mem_cons_self _ _
        · exact List.mem_cons_of_mem _ (h6 k (by omega))
    exact drain_inv f _ _ _ _ _ (Nat.le_refl _) hpre
  · simp only [if_neg hp]
    have hdp : st.dataPos ≤ m.1 := by
      by_contra hlt
      exact hfresh (h6 m.1 (by omega))
    have hnotbuf : m.1 ∉ st.buf.map Prod.fst := by
      intro hmem
      exact hfresh ((h4 m.1).mp hmem).1
    have hpre : RPreInv f (m.1 :: R) st.dataPos ((m.1, m.2) :: st.buf) st.out := by
      refine ⟨h1, ?_, ?_, ?_, ?_⟩
      · rw [List.map_cons, List.nodup_cons]
        exact ⟨hnotbuf, h2⟩
      · intro e he
        rcases List.mem_cons.mp he with h | h
        · rw [h]; exact hpay
        · exact h3 e h
      · intro k
        rw [List.map_cons, List.mem_cons, h4 k]
        constructor
        · rintro (h | ⟨hkR, hkpos⟩)
          · exact ⟨h ▸ List.mem_cons_self _ _, h ▸ hdp⟩
          · exact ⟨List.mem_cons_of_mem _ hkR, hkpos⟩
        · rintro ⟨hk, hkpos⟩
          rcases List.mem_cons.mp hk with h | h
          · exact Or.inl h
          · exact Or.inr ⟨h, hkpos⟩
      · intro k hk
        exact List.mem_cons_of_mem _ (h6 k hk)
    exact drain_inv f _ _ _ _ _ (Nat.le_refl _) hpre

/-- The invariant only depends on the membership of R. -/
lemma inv_congr {α : Type} {f : Nat → α} {R S : List Nat} {st : RState α}
    (hRS : ∀ k, k ∈ R ↔ k ∈ S) (hinv : RInv f R st) : RInv f S st := by
  obtain ⟨h1, h2, h3, h4, h5, h6⟩ := hinv
  refine ⟨h1, h2, h3, ?_, ?_, ?_⟩
  · intro k; rw [h4 k, hRS k]
  · intro h; exact h5 ((hRS _).mpr h)
  · intro k hk; exact (hRS k).mp (h6 k hk)

lemma foldl_recvStep_inv {α : Type} (f : Nat → α) :
    ∀ (msgs : List (Msg α)) (st : RState α) (R : List Nat),
    RInv f R st →
    (msgs.map Prod.fst).Nodup →
    (∀ m ∈ msgs, m.2 = f m.1) →
    (∀ m ∈ msgs, m.1 ∉ R) →
    RInv f (msgs.map Prod.fst ++ R) (msgs.foldl recvStep st) := by
  intro msgs
  induction msgs with
  | nil => intro st R hinv _ _ _; simpa using hinv
  | cons m rest ih =>
    intro st R hinv hnd hpay hfresh
    rw [List.map_cons, List.nodup_cons] at hnd
    have hstep : RInv f (m.1 :: R) (recvStep st m) :=
      recvStep_inv hinv (hfresh m (List.mem_cons_self _ _)) (hpay m (List.mem_cons_self _ _))
    have hrest : RInv f (rest.map Prod.fst ++ (m.1 :: R)) (rest.foldl recvStep (recvStep st m)) := by
      refine ih (recvStep st m) (m.1 :: R) hstep hnd.2 ?_ ?_
      · intro x hx; exact hpay x (List.mem_cons_of_mem _ hx)
      · intro x hx
        rw [List.mem_cons]
        rintro (h | h)
        · exact hnd.1 (h ▸ List.mem_map_of_mem Prod.fst hx)
        · exact hfresh x (List.mem_cons_of_mem _ hx) h
    rw [List.foldl_cons, List.map_cons]
    refine inv_congr ?_ hrest
    intro k
    simp only [List.mem_append, List.mem_cons]
    tauto

/-- Completeness of the reassembly loop: if the arriving messages carry
exactly the indices 0..n-1, each with its payload, then at loop end the
cursor equals n, the buffer is empty and the writes are the payloads in
original order. This is the shared engine behind several claims. -/
lemma reassemble_complete {α : Type} (n : Nat) (f : Nat → α) (msgs : List (Msg α))
    (hperm : (msgs.map Prod.fst).Perm (List.range n))
    (hpay : ∀ m ∈ msgs, m.2 = f m.1) :
    (reassemble msgs).out = (List.range n).map f ∧
    (reassemble msgs).dataPos = n ∧
    (reassemble msgs).buf = [] := by
  have hnd : (msgs.map Prod.fst).Nodup := hperm.nodup_iff.mpr (List.nodup_range n)
  have hinit : RInv f [] (⟨0, [], []⟩ : RState α) := by
    refine ⟨by simp, by simp, by simp, ?_, by simp, by simp⟩
    intro k; simp
  have hinv := foldl_recvStep_inv f msgs ⟨0, [], []⟩ [] hinit hnd hpay (by simp)
  rw [List.append_nil] at hinv
  have hmemR : ∀ k, k ∈ msgs.map Prod.fst ↔ k < n := by
    intro k
    rw [hperm.mem_iff, List.mem_range]
  obtain ⟨h1, h2, h3, h4, h5, h6⟩ := hinv
  have hst : reassemble msgs = List.foldl recvStep (⟨0, [], []⟩ : RState α) msgs := rfl
  have hge : n ≤ (List.foldl recvStep (⟨0, [], []⟩ : RState α) msgs).dataPos := by
    by_contra hlt
    exact h5 ((hmemR _).mpr (by omega))
  have hle : (List.foldl recvStep (⟨0, [], []⟩ : RState α) msgs).dataPos ≤ n := by
    by_contra hgt
    have hnn : n ∈ msgs.map Prod.fst := h6 n (by omega)
    have := (hmemR n).mp hnn
    omega
  have hn : (List.foldl recvStep (⟨0, [], []⟩ : RState α) msgs).dataPos = n := by omega
  have hkeys : (List.foldl recvStep (⟨0, [], []⟩ : RState α) msgs).buf.map Prod.fst = [] := by
    by_contra hne
    rcases List.exists_mem_of_ne_nil _ hne with ⟨k, hk⟩
    have hx := (h4 k).mp hk
    have := (hmemR k).mp hx.1
    omega
  refine ⟨?_, ?_, ?_⟩
  · rw [hst, h1, hn]
  · rw [hst, hn]
  · rw [hst]
    exact List.map_eq_nil_iff.mp hkeys

lemma pushAt_length {σ : Type} (s : σ) :
    ∀ (ls : List (List σ)) (w : Nat), (pushAt w s ls).length = ls.length := by
  intro ls
  induction ls with
  | nil => intro w; simp [pushAt]
  | cons l rest ih =>
    intro w
    cases w with
    | zero => simp [pushAt]
    | succ w => simp [pushAt, ih w]

lemma pushAt_getD {σ : Type} (s : σ) :
    ∀ (ls : List (List σ)) (w v : Nat), w < ls.length →
    (pushAt w s ls).getD v [] = if v = w then ls.getD v [] ++ [s] else ls.getD v [] := by
  intro ls
  induction ls with
  | nil => intro w v h; simp at h
  | cons l rest ih =>
    intro w v h
    cases w with
    | zero =>
      cases v with
      | zero => simp [pushAt]
      | succ v => simp [pushAt]
    | succ w =>
      cases v with
      | zero => simp [pushAt]
      | succ v =>
        simp only [pushAt, List.getD_cons_succ]
        rw [ih w v (by simpa using h)]
        by_cases hv : v = w
        · simp [hv]
        · simp [hv]

lemma distributeFrom_length {σ : Type} (cpus : Nat) :
    ∀ (rest : List σ) (i : Nat) (segs : List (List σ)),
    (distributeFrom cpus i rest segs).length = segs.length := by
  intro rest
  induction rest with
  | nil => intro i segs; rfl
  | cons s rest ih =>
    intro i segs
    rw [distributeFrom, ih, pushAt_length]

lemma index_mod_eq (i cpus : Nat) : i - ((i / cpus) * cpus) = i % cpus := by
  conv_lhs => rw [Nat.mul_comm]
  have := Nat.mod_add_div i cpus
  omega

lemma distributeFrom_getD {σ : Type} (cpus : Nat) (hcpus : 0 < cpus) :
    ∀ (rest : List σ) (i : Nat) (segs : List (List σ)), segs.length = cpus →
    ∀ w, w < cpus →
    (distributeFrom cpus i rest segs).getD w [] = segs.getD w [] ++ specSublist cpus w i rest := by
  intro rest
  induction rest with
  | nil => intro i segs hlen w hw; simp [distributeFrom, specSublist]
  | cons s rest ih =>
    intro i segs hlen w hw
    rw [distributeFrom, specSublist]
    have hidx : i - ((i / cpus) * cpus) = i % cpus := index_mod_eq i cpus
    have hlt : i % cpus < segs.length := by
      rw [hlen]; exact Nat.mod_lt i hcpus
    have hlen2 : (pushAt (i - ((i / cpus) * cpus)) s segs).length = cpus := by
      rw [pushAt_length, hlen]
    rw [ih (i + 1) _ hlen2 w hw]
    rw [hidx]
    rw [pushAt_getD s segs (i % cpus) w hlt]
    by_cases hm : i % cpus = w
    · rw [if_pos hm.symm, if_pos hm]
      simp
    · rw [if_neg (fun h => hm h.symm), if_neg hm]

lemma specSublist_range' (N w : Nat) :
    ∀ (cnt i : Nat), specSublist N w i (List.range' i cnt)
      = (List.range' i cnt).filter (fun j => j % N = w) := by
  intro cnt
  induction cnt with
  | zero => intro i; simp [List.range', specSublist]
  | succ cnt ih =>
    intro i
    rw [List.range'_succ, specSublist, ih (i + 1)]
    by_cases hm : i % N = w
    · rw [if_pos hm]
      rw [List.filter_cons_of_pos (by simpa using hm)]
    · rw [if_neg hm]
      rw [List.filter_cons_of_neg (by simpa using hm)]

/-- Closed form of the partitioner on the index list 0..M-1: bucket w holds
exactly the indices congruent to w modulo N, in increasing order. -/
lemma partition_range_eq (M N : Nat) (hN : 0 < N) :
    partitionSegments (List.range M) N
      = (List.range N).map (fun w => (List.range M).filter (fun i => i % N = w)) := by
  refine List.ext_getElem ?_ ?_
  · rw [List.length_map, List.length_range]
    rw [partitionSegments, distributeFrom_length, List.length_replicate]
  · intro w h1 h2
    have hw : w < N := by
      simpa [partitionSegments, distributeFrom_length] using h1
    have hgd : (partitionSegments (List.range M) N).getD w []
        = (List.replicate N ([] : List Nat)).getD w [] ++ specSublist N w 0 (List.range M) := by
      rw [partitionSegments]
      exact distributeFrom_getD N hN (List.range M) 0 _ (by simp) w hw
    have hrep : (List.replicate N ([] : List Nat)).getD w [] = [] := by
      rw [List.getD_eq_getElem?_getD, List.getElem?_replicate, if_pos hw]
      rfl
    have hlhs : (partitionSegments (List.range M) N)[w] = specSublist N w 0 (List.range M) := by
      rw [← List.getD_eq_getElem _ [] h1, hgd, hrep, List.nil_append]
    rw [hlhs, List.getElem_map, List.getElem_range]
    rw [List.range_eq_range' M, specSublist_range' N w M 0, ← List.range_eq_range']

lemma mem_partition_bucket (M N w i : Nat) (hN : 0 < N) (hw : w < N) :
    i ∈ (partitionSegments (List.range M) N).getD w [] ↔ (i < M ∧ i % N = w) := by
  rw [partition_range_eq M N hN]
  have hlen : w < ((List.range N).map
      (fun w => (List.range M).filter (fun i => i % N = w))).length := by
    simpa using hw
  rw [List.getD_eq_getElem _ [] hlen, List.getElem_map, List.getElem_range]
  simp [List.mem_filter]

lemma partition_flatten_perm (M N : Nat) (hN : 0 < N) :
    (partitionSegments (List.range M) N).flatten.Perm (List.range M) := by
  rw [partition_range_eq M N hN]
  have hnodup : ((List.range N).map
      (fun w => (List.range M).filter (fun i => i % N = w))).flatten.Nodup := by
    rw [List.nodup_flatten]
    constructor
    · intro l hl
      rcases List.mem_map.mp hl with ⟨w, _, hfw⟩
      exact hfw ▸ (List.nodup_range M).filter _
    · rw [List.pairwise_map]
      refine List.Pairwise.imp ?_ (List.pairwise_lt_range N)
      intro w1 w2 hlt x hx1 hx2
      have e1 : x % N = w1 := by simpa using (List.mem_filter.mp hx1).2
      have e2 : x % N = w2 := by simpa using (List.mem_filter.mp hx2).2
      omega
  rw [List.perm_ext_iff_of_nodup hnodup (List.nodup_range M)]
  intro a
  rw [List.mem_flatten, List.mem_range]
  constructor
  · rintro ⟨l, hl, hal⟩
    rcases List.mem_map.mp hl with ⟨w, _, hfw⟩
    subst hfw
    exact List.mem_range.mp (List.mem_filter.mp hal).1
  · intro ha
    refine ⟨(List.range M).filter (fun i => i % N = a % N), ?_, ?_⟩
    · exact List.mem_map_of_mem _ (List.mem_range.mpr (Nat.mod_lt a hN))
    · rw [List.mem_filter]
      exact ⟨List.mem_range.mpr ha, by simp⟩

lemma joinResults_ok_iff {ε : Type} :
    ∀ (l : List (Except ε Unit)),
    (∃ u, joinResults l = Except.ok u) ↔ ∀ r ∈ l, r = Except.ok () := by
  intro l
  induction l with
  | nil => simp [joinResults]
  | cons r rest ih =>
    cases r with
    | error e => simp [joinResults]
    | ok u =>
      cases u
      simp [joinResults, ih]

lemma runWorker_ok {ε α : Type} [Inhabited α] (res : Nat → Except ε α) :
    ∀ (idxs : List Nat), (runWorker res idxs).2 = Except.ok () →
    (runWorker res idxs).1 = idxs.map (fun i => (i, okValue res i)) := by
  intro idxs
  induction idxs with
  | nil => intro _; rfl
  | cons i rest ih =>
    intro h
    cases hres : res i with
    | error e =>
      rw [runWorker] at h
      simp only [hres] at h
      cases h
    | ok a =>
      have h2 : (runWorker res rest).2 = Except.ok () := by
        rw [runWorker] at h
        simpa [hres] using h
      have hv : okValue res i = a := by
        unfold okValue
        rw [hres]
      rw [runWorker]
      simp only [hres]
      rw [List.map_cons, hv, ih h2]

lemma retryLoop_reaches {α : Type} (attempts : Attempts α) (k : Nat) (b : α)
    (hfail : ∀ t, t < k → attempts t = none) (hsucc : attempts k = some b) :
    ∀ (fuel t : Nat), t ≤ k → k < t + fuel → retryLoop attempts t fuel = some b := by
  intro fuel
  induction fuel with
  | zero => intro t ht hlt; omega
  | succ fuel ih =>
    intro t ht hlt
    by_cases htk : t = k
    · subst htk
      rw [retryLoop, hsucc]
    · rw [retryLoop, hfail t (by omega)]
      exact ih (t + 1) (by omega) (by omega)

lemma replicate_getD_nil {σ : Type} (N w : Nat) :
    (List.replicate N ([] : List σ)).getD w [] = [] := by
  rw [List.getD_eq_getElem?_getD, List.getElem?_replicate]
  by_cases h : w < N
  · rw [if_pos h]
    rfl
  · rw [if_neg h]
    rfl

lemma map_fst_pairing {α : Type} (g : Nat → α) (l : List Nat) :
    (l.map (fun i => (i, g i))).map Prod.fst = l := by
  induction l with
  | nil => rfl
  | cons i rest ih => simp [ih]

lemma flatten_map_keys {α : Type} (g : Nat → α) (P : List (List Nat)) :
    ((P.map (fun idxs => idxs.map (fun i => (i, g i)))).flatten).map Prod.fst = P.flatten := by
  induction P with
  | nil => rfl
  | cons l rest ih =>
    rw [List.map_cons, List.flatten_cons, List.flatten_cons, List.map_append,
      map_fst_pairing, ih]

lemma remaining_est_congr (bandwidth : Nat) (segs : List VariantSegment)
    {K K2 : List Nat} (h : ∀ i, i ∈ K ↔ i ∈ K2) :
    remaining_est bandwidth segs K = remaining_est bandwidth segs K2 := by
  unfold remaining_est
  congr 1
  congr 1
  apply List.filter_congr
  intro i _
  exact decide_eq_decide.mpr (by rw [h i])

lemma remaining_est_split (bandwidth : Nat) (segs : List VariantSegment)
    (K : List Nat) (j : Nat) (hj : j < segs.length) (hjK : j ∉ K) :
    remaining_est bandwidth segs K
      = estimated_segment_len bandwidth segs j + remaining_est bandwidth segs (j :: K) := by
  unfold remaining_est
  have hjl : j ∈ (List.range segs.length).filter (fun i => decide (i ∉ K)) := by
    rw [List.mem_filter]
    exact ⟨List.mem_range.mpr hj, by simpa using hjK⟩
  have hnd : ((List.range segs.length).filter (fun i => decide (i ∉ K))).Nodup :=
    (List.nodup_range _).filter _
  have hperm := List.perm_cons_erase hjl
  rw [(hperm.map (estimated_segment_len bandwidth segs)).sum_eq]
  rw [List.map_cons, List.sum_cons]
  congr 1
  have herase : ((List.range segs.length).filter (fun i => decide (i ∉ K))).erase j
      = (List.range segs.length).filter (fun i => decide (i ∉ (j :: K))) := by
    rw [hnd.erase_eq_filter, List.filter_filter]
    apply List.filter_congr
    intro i _
    show ((i != j) && decide (i ∉ K)) = decide (i ∉ j :: K)
    by_cases h1 : i = j
    · simp [h1]
    · by_cases h2 : i ∈ K
      · simp [h1, h2]
      · simp [h1, h2]
  rw [herase]

lemma progress_run_inv (bandwidth : Nat) (segs : List VariantSegment) :
    ∀ (msgs : List (Msg (List Nat))) (K : List Nat) (p : ProgressState),
    p.length = p.position + remaining_est bandwidth segs K →
    (∀ m ∈ msgs, m.1 < segs.length ∧ m.1 ∉ K) →
    (msgs.map Prod.fst).Nodup →
    (msgs.foldl (progress_step bandwidth segs) p).length
      = (msgs.foldl (progress_step bandwidth segs) p).position
        + remaining_est bandwidth segs (msgs.map Prod.fst ++ K) := by
  intro msgs
  induction msgs with
  | nil => intro K p hp _ _; simpa using hp
  | cons m rest ih =>
    intro K p hp hval hnd
    rw [List.foldl_cons]
    have hm := hval m (List.mem_cons_self _ _)
    have hsplit := remaining_est_split bandwidth segs K m.1 hm.1 hm.2
    have hstep : (progress_step bandwidth segs p m).length
        = (progress_step bandwidth segs p m).position
          + remaining_est bandwidth segs (m.1 :: K) := by
      show p.length - estimated_segment_len bandwidth segs m.1 + m.2.length
        = p.position + m.2.length + remaining_est bandwidth segs (m.1 :: K)
      omega
    rw [List.map_cons] at hnd ⊢
    rw [List.nodup_cons] at hnd
    have hrec := ih (m.1 :: K) (progress_step bandwidth segs p m) hstep ?_ hnd.2
    · rw [hrec]
      congr 1
      apply remaining_est_congr
      intro i
      simp only [List.mem_append, List.mem_cons]
      tauto
    · intro x hx
      refine ⟨(hval x (List.mem_cons_of_mem _ hx)).1, ?_⟩
      rw [List.mem_cons]
      rintro (h | h)
      · exact hnd.1 (h ▸ List.mem_map_of_mem Prod.fst hx)
      · exact (hval x (List.mem_cons_of_mem _ hx)).2 h

lemma range_map_getD (g : VariantSegment → Nat) (segs : List VariantSegment) :
    (List.range segs.length).map (fun i => g (segs.getD i ⟨none⟩)) = segs.map g := by
  refine List.ext_getElem (by simp) ?_
  intro i h1 h2
  rw [List.getElem_map, List.getElem_map, List.getElem_range]
  have hi : i < segs.length := by simpa using h2
  rw [List.getD_eq_getElem segs ⟨none⟩ hi]

lemma estimated_file_size_eq_remaining (bandwidth : Nat) (segs : List VariantSegment) :
    estimated_file_size bandwidth segs = remaining_est bandwidth segs [] := by
  unfold estimated_file_size remaining_est
  have hfil : (List.range segs.length).filter (fun i => decide (i ∉ ([] : List Nat)))
      = List.range segs.length := by
    apply List.filter_eq_self.mpr
    intro a _
    simp
  rw [hfil]
  have hunf : (List.range segs.length).map (estimated_segment_len bandwidth segs)
      = (List.range segs.length).map
        (fun i => (bandwidth / 8) * ((segs.getD i ⟨none⟩).length.getD 0)) := rfl
  rw [hunf, List.sum_map_mul_left, range_map_getD (fun s => s.length.getD 0) segs]

lemma progress_prefix_inv (bandwidth : Nat) (segs : List VariantSegment)
    (msgs t rest : List (Msg (List Nat))) (hsplit : msgs = t ++ rest)
    (hval : ∀ m ∈ msgs, m.1 < segs.length)
    (hnd : (msgs.map Prod.fst).Nodup) :
    (progress_run bandwidth segs t).length
      = (progress_run bandwidth segs t).position
        + remaining_est bandwidth segs (t.map Prod.fst) := by
  subst hsplit
  rw [List.map_append] at hnd
  have hndt : (t.map Prod.fst).Nodup := hnd.of_append_left
  have hinv := progress_run_inv bandwidth segs t []
    ⟨estimated_file_size bandwidth segs, 0⟩
    (by simpa using estimated_file_size_eq_remaining bandwidth segs)
    (fun m hm => ⟨hval m (List.mem_append_left _ hm), by simp⟩) hndt
  rw [List.append_nil] at hinv
  exact hinv

lemma progress_run_concat (bandwidth : Nat) (segs : List VariantSegment)
    (t : List (Msg (List Nat))) (m : Msg (List Nat)) :
    progress_run bandwidth segs (t ++ [m])
      = progress_step bandwidth segs (progress_run bandwidth segs t) m := by
  unfold progress_run
  rw [List.foldl_append]
  rfl

lemma getLast?_some_mem {α : Type} : ∀ {l : List α} {a : α}, l.getLast? = some a → a ∈ l := by
  intro l
  induction l with
  | nil => intro a h; cases h
  | cons x rest ih =>
    intro a h
    cases rest with
    | nil =>
      simp at h
      simp [h]
    | cons y rest2 =>
      rw [List.getLast?_cons_cons] at h
      exact List.mem_cons_of_mem x (ih h)

lemma sorted_head_max {l : List VariantData} {v : VariantData}
    (hs : List.Sorted widthDesc l) (hh : l.head? = some v) :
    ∀ u ∈ l, u.resolution.width ≤ v.resolution.width := by
  cases l with
  | nil => cases hh
  | cons a rest =>
    have hv : a = v := by simpa using hh
    subst hv
    intro u hu
    rcases List.mem_cons.mp hu with h | h
    · rw [h]
    · exact (List.sorted_cons.mp hs).1 u h

lemma sorted_getLast_min : ∀ {l : List VariantData} {v : VariantData},
    List.Sorted widthDesc l → l.getLast? = some v →
    ∀ u ∈ l, v.resolution.width ≤ u.resolution.width := by
  intro l
  induction l with
  | nil => intro v _ h; cases h
  | cons a rest ih =>
    intro v hs hl u hu
    cases rest with
    | nil =>
      have hv : a = v := by simpa using hl
      have hu2 : u = a := by simpa using hu
      rw [hv] at hu2
      rw [hu2]
    | cons b rest2 =>
      rw [List.getLast?_cons_cons] at hl
      rcases List.mem_cons.mp hu with h | h
      · have hvmem : v ∈ b :: rest2 := getLast?_some_mem hl
        have := (List.sorted_cons.mp hs).1 v hvmem
        rw [h]
        exact this
      · exact ih (List.sorted_cons.mp hs).2 hl u h

lemma sorted_find_max_match (p : VariantData → Bool) :
    ∀ {l : List VariantData} {v : VariantData},
    List.Sorted widthDesc l → l.find? p = some v →
    ∀ u ∈ l, p u = true → u.resolution.width ≤ v.resolution.width := by
  intro l
  induction l with
  | nil => intro v _ h; cases h
  | cons a rest ih =>
    intro v hs hf u hu hp
    have hsc := List.sorted_cons.mp hs
    cases hpa : p a with
    | true =>
      rw [List.find?_cons_of_pos _ hpa] at hf
      have hva : a = v := by simpa using hf
      subst hva
      rcases List.mem_cons.mp hu with h | h
      · rw [h]
      · exact hsc.1 u h
    | false =>
      rw [List.find?_cons_of_neg _ (by simp [hpa])] at hf
      rcases List.mem_cons.mp hu with h | h
      · rw [h] at hp
        rw [hp] at hpa
        cases hpa
      · exact ih hsc.2 hf u h hp

lemma preset_check_remove_fst (ps : List FFmpegPreset) (p : FFmpegPreset) :
    (preset_check_remove ps p).1 = ps.erase p := by
  unfold preset_check_remove
  by_cases h : ps.contains p
  · rw [if_pos h]
  · rw [if_neg h]
    show ps = ps.erase p
    rw [List.erase_of_not_mem]
    intro hmem
    exact h (List.elem_iff.mpr hmem)

lemma countP_erase_nvidia (ps : List FFmpegPreset) :
    (ps.erase FFmpegPreset.nvidia).countP (fun p => !(p == FFmpegPreset.nvidia))
      = ps.countP (fun p => !(p == FFmpegPreset.nvidia)) := by
  by_cases h : FFmpegPreset.nvidia ∈ ps
  · have hperm := List.perm_cons_erase h
    rw [hperm.countP_eq]
    rw [List.countP_cons]
    simp
  · rw [List.erase_of_not_mem h]

/-- Claim C1: for every list of segments and every permutation of
completion-message arrival order, the reassembly loop writes the payloads
in strictly increasing index order starting at 0, each exactly once with no
duplicates and no gaps, so the bytes written equal the concatenation of the
segments in original order. -/
theorem claim_c1_reassembly_order {γ : Type} (n : Nat) (f : Nat → List γ)
    (msgs : List (Msg (List γ)))
    (hperm : (msgs.map Prod.fst).Perm (List.range n))
    (hpay : ∀ m ∈ msgs, m.2 = f m.1) :
    (reassemble msgs).out = (List.range n).map f ∧
    (reassemble msgs).dataPos = n ∧
    (reassemble msgs).buf = [] ∧
    (reassemble msgs).out.flatten = ((List.range n).map f).flatten := by
  obtain ⟨h1, h2, h3⟩ := reassemble_complete n f msgs hperm hpay
  exact ⟨h1, h2, h3, by rw [h1]⟩

theorem claim_c1_witness :
    (exMsgsC1.map Prod.fst).Perm (List.range 9) ∧
    (reassemble exMsgsC1).out = (List.range 9).map (fun i => [i]) ∧
    (reassemble exMsgsC1).dataPos = 9 ∧
    (reassemble exMsgsC1).buf = [] :=
  ⟨by decide,
   (claim_c1_reassembly_order 9 (fun i => [i]) exMsgsC1 (by decide) (by decide)).1,
   (claim_c1_reassembly_order 9 (fun i => [i]) exMsgsC1 (by decide) (by decide)).2.1,
   (claim_c1_reassembly_order 9 (fun i => [i]) exMsgsC1 (by decide) (by decide)).2.2.1⟩

/-- Claim C2: the partitioner produces exactly N sub-lists; sub-list w
holds, in original relative order, exactly the segments with original index
congruent to w modulo N; on the index level the sub-lists are pairwise
disjoint and cover 0..M-1; and an empty input yields N empty sub-lists. -/
theorem claim_c2_partition {σ : Type} (segments : List σ) (M N : Nat)
    (hM : segments.length = M) (hN : 1 ≤ N) :
    (partitionSegments segments N).length = N ∧
    (∀ w, w < N → (partitionSegments segments N).getD w [] = specSublist N w 0 segments) ∧
    (∀ w1 w2, w1 < N → w2 < N → w1 ≠ w2 → ∀ i,
      i ∈ (partitionSegments (List.range M) N).getD w1 [] →
      i ∉ (partitionSegments (List.range M) N).getD w2 []) ∧
    (∀ i, i ∈ (partitionSegments (List.range M) N).flatten ↔ i ∈ List.range M) ∧
    partitionSegments ([] : List σ) N = List.replicate N [] := by
  have hN0 : 0 < N := hN
  refine ⟨?_, ?_, ?_, ?_, ?_⟩
  · rw [partitionSegments, distributeFrom_length, List.length_replicate]
  · intro w hw
    rw [partitionSegments,
      distributeFrom_getD N hN0 segments 0 _ (by simp) w hw,
      replicate_getD_nil, List.nil_append]
  · intro w1 w2 hw1 hw2 hne i hi1 hi2
    have h1 := (mem_partition_bucket M N w1 i hN0 hw1).mp hi1
    have h2 := (mem_partition_bucket M N w2 i hN0 hw2).mp hi2
    omega
  · intro i
    rw [(partition_flatten_perm M N hN0).mem_iff]
  · rfl

theorem claim_c2_witness :
    ((List.range 9).length = 9 ∧ 1 ≤ 3) ∧
    (partitionSegments (List.range 9) 3).length = 3 ∧
    (partitionSegments (List.range 9) 3).getD 0 [] = specSublist 3 0 0 (List.range 9) :=
  ⟨⟨by decide, by decide⟩,
   (claim_c2_partition (List.range 9) 9 3 (by decide) (by decide)).1,
   (claim_c2_partition (List.range 9) 9 3 (by decide) (by decide)).2.1 0 (by decide)⟩

/-- Claim C9: throughout the reassembly loop (after each drain pass, i.e.
after processing any prefix of the arriving messages) the buffer contains
only indices strictly greater than the write cursor, and the cursor starts
at 0 and the output is exactly segments 0..dataPos-1 in order, so the
cursor grows by exactly 1 per write and never skips. -/
theorem claim_c9_buffer_invariant {α : Type} (f : Nat → α) (msgs : List (Msg α))
    (hnd : (msgs.map Prod.fst).Nodup)
    (hpay : ∀ m ∈ msgs, m.2 = f m.1) :
    (reassemble ([] : List (Msg α))).dataPos = 0 ∧
    ∀ t rest, msgs = t ++ rest →
      (∀ k ∈ (reassemble t).buf.map Prod.fst, (reassemble t).dataPos < k) ∧
      (reassemble t).out = (List.range (reassemble t).dataPos).map f ∧
      (reassemble t).out.length = (reassemble t).dataPos := by
  refine ⟨rfl, ?_⟩
  intro t rest hsplit
  have hndt : (t.map Prod.fst).Nodup := by
    subst hsplit
    rw [List.map_append] at hnd
    exact hnd.of_append_left
  have hpayt : ∀ m ∈ t, m.2 = f m.1 := by
    intro m hm
    exact hpay m (hsplit ▸ List.mem_append_left rest hm)
  have hinit : RInv f [] (⟨0, [], []⟩ : RState α) := by
    refine ⟨by simp, by simp, by simp, ?_, by simp, by simp⟩
    intro k; simp
  have hinv := foldl_recvStep_inv f t ⟨0, [], []⟩ [] hinit hndt hpayt (by simp)
  rw [List.append_nil] at hinv
  obtain ⟨h1, _, _, h4, h5, _⟩ := hinv
  have hre : List.foldl recvStep (⟨0, [], []⟩ : RState α) t = reassemble t := rfl
  rw [hre] at h1 h4 h5
  have hout : (reassemble t).out = (List.range (reassemble t).dataPos).map f := h1
  refine ⟨?_, hout, by rw [hout, List.length_map, List.length_range]⟩
  intro k hk
  have hx := (h4 k).mp hk
  have hne : k ≠ (reassemble t).dataPos := by
    intro h
    exact h5 (h ▸ hx.1)
  omega

theorem claim_c9_witness :
    ([(2, [2]), (0, [0]), (1, [1])].map (Prod.fst (α := Nat) (β := List Nat))).Nodup ∧
    (∀ k ∈ (reassemble [(2, [2]), (0, [0])]).buf.map Prod.fst,
      (reassemble [(2, [2]), (0, [0])]).dataPos < k) ∧
    (reassemble [(2, [2]), (0, [0])]).out
      = (List.range (reassemble [(2, [2]), (0, [0])]).dataPos).map (fun i => [i]) :=
  ⟨by decide,
   ((claim_c9_buffer_invariant (fun i => [i]) [(2, [2]), (0, [0]), (1, [1])]
      (by decide) (by decide)).2 [(2, [2]), (0, [0])] [(1, [1])] rfl).1,
   ((claim_c9_buffer_invariant (fun i => [i]) [(2, [2]), (0, [0]), (1, [1])]
      (by decide) (by decide)).2 [(2, [2]), (0, [0])] [(1, [1])] rfl).2.1⟩

/-- Claim C4: if the completion channel closes (all messages processed)
while the reassembly buffer is non-empty or the write cursor is short of
the total segment count, download_segments returns an error rather than
success. In the code the error surfaces through the join loop: a shortfall
can only come from a worker that stopped early, and the error of that worker is
propagated by joined?? before Ok(()) is reached. -/
theorem claim_c4_integrity {ε α : Type} [Inhabited α] (res : Nat → Except ε α)
    (M N : Nat) (hN : 1 ≤ N) (arrival : List (Msg α))
    (harr : arrival.Perm ((partitionSegments (List.range M) N).map
      (fun idxs => (runWorker res idxs).1)).flatten)
    (hincomplete : (reassemble arrival).buf ≠ [] ∨ (reassemble arrival).dataPos < M) :
    ∃ e, download_segments_model res M N arrival = Except.error e := by
  cases hjoin : joinResults (((partitionSegments (List.range M) N).map
      (runWorker res)).map Prod.snd) with
  | error e =>
    refine ⟨e, ?_⟩
    rw [download_segments_model]
    simp only [hjoin]
  | ok u =>
    exfalso
    have hallok : ∀ r ∈ ((partitionSegments (List.range M) N).map
        (runWorker res)).map Prod.snd, r = Except.ok () :=
      (joinResults_ok_iff _).mp ⟨u, hjoin⟩
    have hmsgs : ∀ idxs ∈ partitionSegments (List.range M) N,
        (runWorker res idxs).1 = idxs.map (fun i => (i, okValue res i)) := by
      intro idxs hidxs
      refine runWorker_ok res idxs ?_
      exact hallok _ (List.mem_map_of_mem Prod.snd
        (List.mem_map_of_mem (runWorker res) hidxs))
    have hsent : ((partitionSegments (List.range M) N).map
        (fun idxs => (runWorker res idxs).1))
        = (partitionSegments (List.range M) N).map
          (fun idxs => idxs.map (fun i => (i, okValue res i))) :=
      List.map_congr_left hmsgs
    have harr2 : arrival.Perm (((partitionSegments (List.range M) N).map
        (fun idxs => idxs.map (fun i => (i, okValue res i)))).flatten) := by
      rw [← hsent]
      exact harr
    have hkeys : (arrival.map Prod.fst).Perm (List.range M) := by
      have h1 := harr2.map Prod.fst
      rw [flatten_map_keys] at h1
      exact h1.trans (partition_flatten_perm M N hN)
    have hpays : ∀ m ∈ arrival, m.2 = okValue res m.1 := by
      intro m hm
      have hm2 := harr2.mem_iff.mp hm
      rcases List.mem_flatten.mp hm2 with ⟨lmsgs, hl, hml⟩
      rcases List.mem_map.mp hl with ⟨idxs, _, hidxs⟩
      subst hidxs
      rcases List.mem_map.mp hml with ⟨i, _, hi⟩
      rw [← hi]
    obtain ⟨_, hpos, hbuf⟩ := reassemble_complete M (okValue res) arrival hkeys hpays
    rcases hincomplete with h | h
    · exact h hbuf
    · omega

theorem claim_c4_witness :
    (1 ≤ 1 ∧ (reassemble [((0 : Nat), (0 : Nat))]).dataPos < 2) ∧
    ∃ e, download_segments_model exResC4 2 1 [((0 : Nat), (0 : Nat))] = Except.error e :=
  ⟨⟨by decide, by decide⟩,
   claim_c4_integrity exResC4 2 1 (by decide) [(0, 0)] (by decide) (Or.inr (by decide))⟩

/-- Claim C3, amended: the retry loop of the worker is unbounded, so for a
transport that fails exactly k times and then succeeds the fetch returns
the payload for EVERY k (k + 1 loop iterations suffice); in particular no
bound of 5 attempts exists and exhausting retries never terminates the
download with an error. -/
theorem claim_c3_amended {α : Type} (attempts : Attempts α) (k : Nat) (b : α)
    (h : failsExactlyThen attempts k b) :
    fetchSegment attempts k = some b := by
  obtain ⟨hfail, hsucc⟩ := h
  match hk : k with
  | 0 =>
    rw [fetchSegment, hsucc]
  | 1 =>
    rw [fetchSegment, hfail 0 (by omega), hsucc]
  | Nat.succ (Nat.succ k2) =>
    rw [fetchSegment, hfail 0 (by omega), hfail 1 (by omega)]
    exact retryLoop_reaches attempts (k2 + 2) b hfail hsucc (k2 + 2) 2 (by omega) (by omega)

/-- Claim C3 as frozen is false on the code: with a transport that fails 5
consecutive times (then succeeds), the claim demands that the whole
download terminate with a fatal error, but the code keeps retrying and the
fetch of that segment succeeds with the payload. -/
theorem claim_c3_counterexample :
    (∀ t, t < 5 → exAttemptsC3 t = none) ∧
    exAttemptsC3 5 = some 42 ∧
    fetchSegment exAttemptsC3 5 = some 42 := by
  refine ⟨?_, ?_, ?_⟩
  · decide
  · decide
  · decide

theorem claim_c3_witness :
    failsExactlyThen exAttemptsC3 5 42 ∧ fetchSegment exAttemptsC3 5 = some 42 :=
  ⟨⟨by decide, by decide⟩, claim_c3_amended exAttemptsC3 5 42 ⟨by decide, by decide⟩⟩

/-- Claim C5: with progress enabled, the consumed byte counter never
exceeds the current total estimate at any observation point: after any
processed prefix of completion messages, and also at the intermediate
point of the next update where set_length has run but inc has not. -/
theorem claim_c5_progress_bound (bandwidth : Nat) (segs : List VariantSegment)
    (msgs : List (Msg (List Nat)))
    (hval : ∀ m ∈ msgs, m.1 < segs.length)
    (hnd : (msgs.map Prod.fst).Nodup) :
    (∀ t rest, msgs = t ++ rest →
      (progress_run bandwidth segs t).position ≤ (progress_run bandwidth segs t).length) ∧
    (∀ t m rest, msgs = t ++ m :: rest →
      (progress_set_length bandwidth segs (progress_run bandwidth segs t) m).position
        ≤ (progress_set_length bandwidth segs (progress_run bandwidth segs t) m).length) := by
  constructor
  · intro t rest hsplit
    have hinv := progress_prefix_inv bandwidth segs msgs t rest hsplit hval hnd
    omega
  · intro t m rest hsplit
    have hinv := progress_prefix_inv bandwidth segs msgs t (m :: rest) hsplit hval hnd
    have hm1 : m.1 < segs.length :=
      hval m (hsplit ▸ List.mem_append_right t (List.mem_cons_self _ _))
    have hmnotin : m.1 ∉ t.map Prod.fst := by
      subst hsplit
      rw [List.map_append, List.map_cons, List.nodup_append] at hnd
      intro hmem
      exact hnd.2.2 hmem (List.mem_cons_self _ _)
    have hsplit_est := remaining_est_split bandwidth segs (t.map Prod.fst) m.1 hm1 hmnotin
    show (progress_run bandwidth segs t).position
      ≤ (progress_run bandwidth segs t).length
        - estimated_segment_len bandwidth segs m.1 + m.2.length
    omega

/-- Claim C6: the initial progress total equals the spec formula
(bandwidth over 8 times the summed whole-second durations, missing
durations as zero), and each completed segment updates the total by
exactly subtracting the estimate of that segment and adding the actual payload
length, in exact unsigned arithmetic (the subtraction never underflows),
while the consumed counter advances by the actual length. -/
theorem claim_c6_estimate_arith (bandwidth : Nat) (segs : List VariantSegment)
    (msgs : List (Msg (List Nat)))
    (hval : ∀ m ∈ msgs, m.1 < segs.length)
    (hnd : (msgs.map Prod.fst).Nodup) :
    estimated_file_size bandwidth segs
      = spec_initial_total bandwidth (segs.map (fun s => s.length)) ∧
    (progress_run bandwidth segs []).length = estimated_file_size bandwidth segs ∧
    ∀ t m rest, msgs = t ++ m :: rest →
      estimated_segment_len bandwidth segs m.1 ≤ (progress_run bandwidth segs t).length ∧
      (progress_run bandwidth segs (t ++ [m])).length
          + estimated_segment_len bandwidth segs m.1
        = (progress_run bandwidth segs t).length + m.2.length ∧
      (progress_run bandwidth segs (t ++ [m])).position
        = (progress_run bandwidth segs t).position + m.2.length := by
  refine ⟨?_, rfl, ?_⟩
  · unfold estimated_file_size spec_initial_total
    rw [List.map_map]
    rfl
  · intro t m rest hsplit
    have hinv := progress_prefix_inv bandwidth segs msgs t (m :: rest) hsplit hval hnd
    have hm1 : m.1 < segs.length :=
      hval m (hsplit ▸ List.mem_append_right t (List.mem_cons_self _ _))
    have hmnotin : m.1 ∉ t.map Prod.fst := by
      subst hsplit
      rw [List.map_append, List.map_cons, List.nodup_append] at hnd
      intro hmem
      exact hnd.2.2 hmem (List.mem_cons_self _ _)
    have hsplit_est := remaining_est_split bandwidth segs (t.map Prod.fst) m.1 hm1 hmnotin
    have hle : estimated_segment_len bandwidth segs m.1
        ≤ (progress_run bandwidth segs t).length := by omega
    refine ⟨hle, ?_, ?_⟩
    · rw [progress_run_concat]
      show (progress_run bandwidth segs t).length
            - estimated_segment_len bandwidth segs m.1 + m.2.length
            + estimated_segment_len bandwidth segs m.1
        = (progress_run bandwidth segs t).length + m.2.length
      omega
    · rw [progress_run_concat]
      rfl

theorem claim_c5_witness :
    ((∀ m ∈ exMsgsP, m.1 < exSegsP.length) ∧ (exMsgsP.map Prod.fst).Nodup) ∧
    (progress_run 80 exSegsP [(1, [9, 9])]).position
      ≤ (progress_run 80 exSegsP [(1, [9, 9])]).length :=
  ⟨⟨by decide, by decide⟩,
   (claim_c5_progress_bound 80 exSegsP exMsgsP (by decide) (by decide)).1
     [(1, [9, 9])] [(0, [7]), (2, [5, 5, 5])] rfl⟩

theorem claim_c6_witness :
    ((∀ m ∈ exMsgsP, m.1 < exSegsP.length) ∧ (exMsgsP.map Prod.fst).Nodup) ∧
    estimated_file_size 80 exSegsP
      = spec_initial_total 80 (exSegsP.map (fun s => s.length)) ∧
    (progress_run 80 exSegsP ([(1, [9, 9])] ++ [(0, [7])])).length
        + estimated_segment_len 80 exSegsP ((0 : Nat), [(7 : Nat)]).1
      = (progress_run 80 exSegsP [(1, [9, 9])]).length + ((0 : Nat), [(7 : Nat)]).2.length :=
  ⟨⟨by decide, by decide⟩,
   (claim_c6_estimate_arith 80 exSegsP exMsgsP (by decide) (by decide)).1,
   ((claim_c6_estimate_arith 80 exSegsP exMsgsP (by decide) (by decide)).2.2
     [(1, [9, 9])] (0, [7]) [(2, [5, 5, 5])] rfl).2.1⟩

/-- Claim C7: on a non-empty variant list, the sentinel maximum height
selects a variant of maximal width, the sentinel minimum height (0) one of
minimal width, and any other height the first variant in width-descending
order whose height matches exactly — none when no height matches. -/
theorem claim_c7_find_resolution (l : List VariantData) (hne : l ≠ []) (res : Resolution) :
    (res.height = U64_MAX → ∃ v, find_resolution l res = Except.ok (some v) ∧ v ∈ l ∧
      ∀ u ∈ l, u.resolution.width ≤ v.resolution.width) ∧
    (res.height = 0 → ∃ v, find_resolution l res = Except.ok (some v) ∧ v ∈ l ∧
      ∀ u ∈ l, v.resolution.width ≤ u.resolution.width) ∧
    (res.height ≠ U64_MAX → res.height ≠ 0 →
      ((∃ u ∈ l, u.resolution.height = res.height) →
        ∃ v, find_resolution l res = Except.ok (some v) ∧ v ∈ l ∧
          v.resolution.height = res.height ∧
          ∀ u ∈ l, u.resolution.height = res.height →
            u.resolution.width ≤ v.resolution.width) ∧
      ((∀ u ∈ l, u.resolution.height ≠ res.height) →
        find_resolution l res = Except.ok none)) := by
  have hperm := List.perm_insertionSort widthDesc l
  have hsort := List.sorted_insertionSort widthDesc l
  have hsne : List.insertionSort widthDesc l ≠ [] := by
    intro h
    rw [h] at hperm
    exact hne hperm.symm.eq_nil
  refine ⟨?_, ?_, ?_⟩
  · intro hmax
    obtain ⟨v, rest, hcons⟩ := List.exists_cons_of_ne_nil hsne
    refine ⟨v, ?_, ?_, ?_⟩
    · simp only [find_resolution]
      rw [if_pos hmax, hcons]
      rfl
    · exact hperm.subset (hcons ▸ List.mem_cons_self v rest)
    · intro u hu
      exact sorted_head_max hsort (by rw [hcons]; rfl) u (hperm.mem_iff.mpr hu)
  · intro h0
    have hmaxne : res.height ≠ U64_MAX := by
      rw [h0]
      decide
    cases hgl : (List.insertionSort widthDesc l).getLast? with
    | none => exact absurd (List.getLast?_eq_none_iff.mp hgl) hsne
    | some v =>
      refine ⟨v, ?_, ?_, ?_⟩
      · simp only [find_resolution]
        rw [if_neg hmaxne, if_pos h0, hgl]
      · exact hperm.subset (getLast?_some_mem hgl)
      · intro u hu
        exact sorted_getLast_min hsort hgl u (hperm.mem_iff.mpr hu)
  · intro hmaxne h0ne
    have hbeqmax : (res.height == U64_MAX) = false := by
      simp [hmaxne]
    have hpred : ∀ v : VariantData,
        ((res.height == U64_MAX) || (v.resolution.height == res.height))
          = (v.resolution.height == res.height) := by
      intro v
      rw [hbeqmax, Bool.false_or]
    constructor
    · rintro ⟨u, hu, huh⟩
      have hex : ∃ x ∈ List.insertionSort widthDesc l,
          ((res.height == U64_MAX) || (x.resolution.height == res.height)) = true :=
        ⟨u, hperm.mem_iff.mpr hu, by rw [hpred u]; simpa using huh⟩
      have hsome := List.find?_isSome.mpr hex
      cases hf : (List.insertionSort widthDesc l).find?
          (fun v => (res.height == U64_MAX) || (v.resolution.height == res.height)) with
      | none =>
        rw [hf] at hsome
        cases hsome
      | some v =>
        refine ⟨v, ?_, ?_, ?_, ?_⟩
        · simp only [find_resolution]
          rw [if_neg hmaxne, if_neg h0ne, hf]
        · exact hperm.subset (List.mem_of_find?_eq_some hf)
        · have hp := List.find?_some hf
          rw [hpred v] at hp
          simpa using hp
        · intro w hw hwh
          refine sorted_find_max_match _ hsort hf w (hperm.mem_iff.mpr hw) ?_
          rw [hpred w]
          simpa using hwh
    · intro hnone
      have hf : (List.insertionSort widthDesc l).find?
          (fun v => (res.height == U64_MAX) || (v.resolution.height == res.height)) = none := by
        rw [List.find?_eq_none]
        intro x hx
        rw [hpred x]
        simpa using hnone x (hperm.mem_iff.mp hx)
      simp only [find_resolution]
      rw [if_neg hmaxne, if_neg h0ne, hf]

theorem claim_c7_witness :
    exVariants ≠ [] ∧
    ∃ v, find_resolution exVariants ⟨0, U64_MAX⟩ = Except.ok (some v) ∧ v ∈ exVariants ∧
      ∀ u ∈ exVariants, u.resolution.width ≤ v.resolution.width :=
  ⟨by decide, (claim_c7_find_resolution exVariants (by decide) ⟨0, U64_MAX⟩).1 rfl⟩

/-- Claim C10: find_resolution is partial on an empty variant list: the
sentinel maximum (u64::MAX) and minimum (0) heights hit an unwrap of an
empty iterator, a panic (modelled as Except.error ()), while every other
height returns no selection. -/
theorem claim_c10_empty_panic (res : Resolution) :
    find_resolution [] res
      = if res.height = U64_MAX ∨ res.height = 0 then Except.error () else Except.ok none := by
  by_cases h1 : res.height = U64_MAX
  · simp only [find_resolution]
    rw [if_pos h1, if_pos (Or.inl h1)]
    rfl
  · by_cases h2 : res.height = 0
    · simp only [find_resolution]
      rw [if_neg h1, if_pos h2, if_pos (Or.inr h2)]
      rfl
    · simp only [find_resolution]
      rw [if_neg h1, if_neg h2, if_neg (by tauto)]
      rfl

/-- Claim C8: the concrete preset resolutions of the spec, plus the general
mutual-exclusivity rule: more than one non-hardware codec preset always
fails with an error naming the conflicting presets. -/
theorem claim_c8_ffmpeg_presets :
    ffmpeg_presets [FFmpegPreset.h264]
      = Except.ok ([], ["-c:v", "libx264", "-c:a", "copy", "-c:s", "copy"]) ∧
    ffmpeg_presets [FFmpegPreset.nvidia, FFmpegPreset.h265]
      = Except.ok (["-hwaccel", "cuvid", "-c:v", "h264_cuvid"],
          ["-c:v", "hevc_nvenc", "-c:a", "copy", "-c:s", "copy"]) ∧
    ffmpeg_presets [] = Except.ok ([], ["-c", "copy"]) ∧
    ffmpeg_presets [FFmpegPreset.nvidia, FFmpegPreset.av1]
      = Except.error FFmpegError.nvidiaAv1Conflict ∧
    ffmpeg_presets [FFmpegPreset.h264, FFmpegPreset.h265]
      = Except.error (FFmpegError.codecConflict [FFmpegPreset.h264, FFmpegPreset.h265]) ∧
    ∀ ps : List FFmpegPreset,
      1 < ps.countP (fun p => !(p == FFmpegPreset.nvidia)) →
      ∃ found, ffmpeg_presets ps = Except.error (FFmpegError.codecConflict found) ∧
        ∀ p ∈ ps, p ≠ FFmpegPreset.nvidia → p ∈ found := by
  refine ⟨rfl, rfl, rfl, rfl, rfl, ?_⟩
  intro ps hcount
  refine ⟨ps.erase FFmpegPreset.nvidia, ?_, ?_⟩
  · have hlen : 1 < (ps.erase FFmpegPreset.nvidia).length := by
      have h1 := countP_erase_nvidia ps
      have h2 := List.countP_le_length
        (p := fun p => !(p == FFmpegPreset.nvidia)) (l := ps.erase FFmpegPreset.nvidia)
      omega
    simp only [ffmpeg_presets]
    rw [preset_check_remove_fst, if_pos hlen]
  · intro p hp hpnv
    exact (List.mem_erase_of_ne hpnv).mpr hp

theorem claim_c8_witness :
    1 < ([FFmpegPreset.h264, FFmpegPreset.h265, FFmpegPreset.av1].countP
        (fun p => !(p == FFmpegPreset.nvidia))) ∧
    ∃ found, ffmpeg_presets [FFmpegPreset.h264, FFmpegPreset.h265, FFmpegPreset.av1]
        = Except.error (FFmpegError.codecConflict found) ∧
      ∀ p ∈ [FFmpegPreset.h264, FFmpegPreset.h265, FFmpegPreset.av1],
        p ≠ FFmpegPreset.nvidia → p ∈ found :=
  ⟨by decide,
   claim_c8_ffmpeg_presets.2.2.2.2.2
     [FFmpegPreset.h264, FFmpegPreset.h265, FFmpegPreset.av1] (by decide)⟩
